import Mathlib

/-!
Verification of the `tequilaTensor` toy tensor class and of the circuit
compilation facts described in the tequila-tutorials notebooks.

Part 1 below is a shallow embedding of the Python class `tequilaTensor`
(QTensor tutorial notebook).  Elements of the tensor (tequila objectives in
the notebook) are kept abstract as a type `α`; Python exceptions are
modelled by an explicit error type, Python lists by `List`, Python ints by
`ℤ`, and Python list indexing (which accepts negative indices) by `pyGet`.
-/

set_option maxHeartbeats 1000000

/-- Python exceptions raised by the `tequilaTensor` methods: generic
`Exception`, `ValueError`, and the `IndexError` that Python list indexing
itself can raise. -/
inductive PyErr where
  | exc : String → PyErr
  | valueError : String → PyErr
  | indexError : String → PyErr
deriving DecidableEq, Repr

/-- Python list indexing `l[i]` for `i : ℤ`: a non-negative index is used
directly, a negative index `i` means `l[len l + i]`, and anything still out
of range raises `IndexError` (modelled as `none`). -/
def pyGet {α : Type} (l : List α) (i : ℤ) : Option α :=
  if 0 ≤ i then l[i.toNat]?
  else if 0 ≤ (l.length : ℤ) + i then l[((l.length : ℤ) + i).toNat]?
  else none

/-- The class `tequilaTensor` of the QTensor notebook: a flat list of
elements together with a shape. -/
structure tequilaTensor (α : Type) where
  objective_list : List α
  shape : List ℕ
deriving DecidableEq, Repr

/-- The index computed by the loop in `tequilaTensor.access`:
`list_index = Σ_{i < n-1} idx[i] * _prod(shape, i) + (idx[n-1] + 1)`,
where `_prod(shape, i)` is the product of the shape entries after
position `i` (the product of the remaining tail in this paired
recursion). -/
def listIndex : List ℤ → List ℕ → ℤ
  | [i], _ => i + 1
  | i :: is, _ :: ss => i * (ss.prod : ℤ) + listIndex is ss
  | [], _ => 0
  | i :: is, [] => i + listIndex is []

/-- The bounds-checking loop of `tequilaTensor.access`: it raises
`ValueError` (here: returns `false`) as soon as some `idx[j] >= shape[j]`.
Negative components are never rejected. -/
def boundsOk : List ℤ → List ℕ → Bool
  | i :: is, s :: ss => if (s : ℤ) ≤ i then false else boundsOk is ss
  | _, _ => true

/-- `tequilaTensor.access`: raises a generic exception when the index
length differs from the shape length, `ValueError` when a component is too
large, and otherwise returns `objective_list[list_index - 1]` (Python list
indexing, so a negative final index wraps around). -/
def tequilaTensor.access {α : Type} (A : tequilaTensor α) (idx : List ℤ) :
    Except PyErr α :=
  if idx.length ≠ A.shape.length then
    Except.error (PyErr.exc "access: shapes do not match")
  else if boundsOk idx A.shape = false then
    Except.error (PyErr.valueError "no such matrix cell exists")
  else
    match pyGet A.objective_list (listIndex idx A.shape - 1) with
    | some x => Except.ok x
    | none => Except.error (PyErr.indexError "list index out of range")

/-- `tequilaTensor.__getitem__` just delegates to `access`. -/
def tequilaTensor.getitem {α : Type} (A : tequilaTensor α) (idx : List ℤ) :
    Except PyErr α :=
  A.access idx

/-- The element-building loop of `tequilaTensor.__add__`: it walks the
indices of the first list and looks the same index up in the second list,
so it raises `IndexError` when the second list is shorter. -/
def addLoop {α : Type} [Add α] : List α → List α → Except PyErr (List α)
  | [], _ => Except.ok []
  | x :: xs, y :: ys => (addLoop xs ys).map (fun l => (x + y) :: l)
  | _ :: _, [] => Except.error (PyErr.indexError "list index out of range")

/-- `tequilaTensor.__add__`: raises a generic exception on shape mismatch,
otherwise returns the element-wise sum with the shape of the left
operand. -/
def tequilaTensor.add {α : Type} [Add α] (A B : tequilaTensor α) :
    Except PyErr (tequilaTensor α) :=
  if A.shape ≠ B.shape then
    Except.error (PyErr.exc "shapes do not match")
  else
    (addLoop A.objective_list B.objective_list).map
      (fun l => { objective_list := l, shape := A.shape })

/-- The dynamic type of the right operand of `tequilaTensor.__mul__`:
either a scalar (`int`, `float` or `complex` in the Python source) or
another `tequilaTensor`. -/
inductive MulOther (α : Type) where
  | scalar : α → MulOther α
  | tensor : tequilaTensor α → MulOther α

/-- The element-building loop of the tensor branch of
`tequilaTensor.__mul__`. -/
def mulLoop {α : Type} [Mul α] : List α → List α → Except PyErr (List α)
  | [], _ => Except.ok []
  | x :: xs, y :: ys => (mulLoop xs ys).map (fun l => (x * y) :: l)
  | _ :: _, [] => Except.error (PyErr.indexError "list index out of range")

/-- `tequilaTensor.__mul__`: a scalar right operand multiplies every
element from the right; a tensor right operand must have the same shape
and is multiplied element-wise. -/
def tequilaTensor.mul {α : Type} [Mul α] (A : tequilaTensor α) :
    MulOther α → Except PyErr (tequilaTensor α)
  | MulOther.scalar c =>
      Except.ok { objective_list := A.objective_list.map (fun x => x * c),
                  shape := A.shape }
  | MulOther.tensor B =>
      if A.shape ≠ B.shape then
        Except.error (PyErr.exc "shapes do not match")
      else
        (mulLoop A.objective_list B.objective_list).map
          (fun l => { objective_list := l, shape := A.shape })

/-- `tequilaTensor.__rmul__` delegates to `__mul__`; a scalar left operand
`c * A` reaches it because Python falls back to the reflected method. -/
def tequilaTensor.rmul {α : Type} [Mul α] (A : tequilaTensor α) (c : α) :
    Except PyErr (tequilaTensor α) :=
  A.mul (MulOther.scalar c)

/-- Row-major flat index, written from the claim: the sum over the
positions of `idx[i]` times the product of the shape entries after
position `i`. -/
def rowMajor : List ℤ → List ℕ → ℤ
  | [], _ => 0
  | i :: is, _ :: ss => i * (ss.prod : ℤ) + rowMajor is ss
  | i :: is, [] => i + rowMajor is []

/-- Componentwise `0 ≤ idx[j] < shape[j]`, as a Boolean recursion (false
on length mismatch). -/
def inBoundsB : List ℤ → List ℕ → Bool
  | [], [] => true
  | i :: is, s :: ss => if 0 ≤ i ∧ i < (s : ℤ) then inBoundsB is ss else false
  | _, _ => false

/-! ### Helper lemmas about the index arithmetic -/

lemma inBoundsB_of_forall :
    ∀ (idx : List ℤ) (shape : List ℕ), idx.length = shape.length →
      (∀ (j : ℕ) (h1 : j < idx.length) (h2 : j < shape.length),
        0 ≤ idx[j] ∧ idx[j] < (shape[j] : ℤ)) →
      inBoundsB idx shape = true
  | [], [], _, _ => rfl
  | i :: is, s :: ss, hlen, h => by
      have h0 := h 0 (by simp) (by simp)
      simp only [List.getElem_cons_zero] at h0
      have htail : inBoundsB is ss = true := by
        refine inBoundsB_of_forall is ss (by simpa using hlen) ?_
        intro j h1 h2
        have := h (j + 1) (by simpa using Nat.succ_lt_succ h1)
          (by simpa using Nat.succ_lt_succ h2)
        simpa using this
      simp [inBoundsB, h0, htail]

lemma boundsOk_of_inBoundsB :
    ∀ (idx : List ℤ) (shape : List ℕ), inBoundsB idx shape = true →
      boundsOk idx shape = true
  | [], [], _ => rfl
  | i :: is, s :: ss, h => by
      by_cases hi : 0 ≤ i ∧ i < (s : ℤ)
      · have htail : inBoundsB is ss = true := by
          simpa [inBoundsB, hi] using h
        simp [boundsOk, not_le.mpr hi.2, boundsOk_of_inBoundsB is ss htail]
      · simp [inBoundsB, hi] at h

lemma boundsOk_false_of_violation :
    ∀ (idx : List ℤ) (shape : List ℕ),
      (∃ (j : ℕ) (h1 : j < idx.length) (h2 : j < shape.length),
        (shape[j] : ℤ) ≤ idx[j]) →
      boundsOk idx shape = false
  | [], _, h => by
      obtain ⟨j, h1, _, _⟩ := h
      exact absurd h1 (by simp)
  | i :: is, [], h => by
      obtain ⟨j, _, h2, _⟩ := h
      exact absurd h2 (by simp)
  | i :: is, s :: ss, h => by
      obtain ⟨j, h1, h2, hv⟩ := h
      match j with
      | 0 =>
        simp only [List.getElem_cons_zero] at hv
        simp [boundsOk, hv]
      | j + 1 =>
        simp only [List.getElem_cons_succ] at hv
        have htail : boundsOk is ss = false :=
          boundsOk_false_of_violation is ss
            ⟨j, by simpa using h1, by simpa using h2, hv⟩
        by_cases hi : (s : ℤ) ≤ i
        · simp [boundsOk, hi]
        · simp [boundsOk, hi, htail]

lemma rowMajor_bounds :
    ∀ (idx : List ℤ) (shape : List ℕ), inBoundsB idx shape = true →
      0 ≤ rowMajor idx shape ∧ rowMajor idx shape < (shape.prod : ℤ)
  | [], [], _ => by simp [rowMajor]
  | [], s :: ss, h => by simp [inBoundsB] at h
  | i :: is, [], h => by simp [inBoundsB] at h
  | i :: is, s :: ss, h => by
      by_cases hi : 0 ≤ i ∧ i < (s : ℤ)
      · have htail : inBoundsB is ss = true := by simpa [inBoundsB, hi] using h
        obtain ⟨hr0, hr1⟩ := rowMajor_bounds is ss htail
        constructor
        · have : 0 ≤ i * (ss.prod : ℤ) :=
            mul_nonneg hi.1 (by positivity)
          simp only [rowMajor]
          omega
        · have hi' : i ≤ (s : ℤ) - 1 := by omega
          have hP : 0 ≤ (ss.prod : ℤ) := by positivity
          have hmul : i * (ss.prod : ℤ) ≤ ((s : ℤ) - 1) * (ss.prod : ℤ) :=
            mul_le_mul_of_nonneg_right hi' hP
          simp only [rowMajor, List.prod_cons, Nat.cast_mul]
          nlinarith
      · simp [inBoundsB, hi] at h

lemma listIndex_eq_rowMajor :
    ∀ (idx : List ℤ) (shape : List ℕ), idx ≠ [] →
      idx.length = shape.length →
      listIndex idx shape = rowMajor idx shape + 1
  | [], _, hne, _ => absurd rfl hne
  | [i], s :: ss, _, hlen => by
      have hss : ss = [] := by simpa using hlen
      subst hss
      simp [listIndex, rowMajor]
  | i :: j :: is, s :: ss, _, hlen => by
      match ss with
      | [] => simp at hlen
      | s' :: ss' =>
        have htail := listIndex_eq_rowMajor (j :: is) (s' :: ss')
          (by simp) (by simpa using hlen)
        simp only [listIndex]
        rw [htail]
        simp only [rowMajor]
        ring

lemma pyGet_nonneg {α : Type} (l : List α) (i : ℤ) (h0 : 0 ≤ i)
    (h1 : i < l.length) : pyGet l i = some (l.get ⟨i.toNat, by omega⟩) := by
  rw [pyGet, if_pos h0]
  exact List.getElem?_eq_getElem (by omega)

lemma access_ok_core {α : Type} (A : tequilaTensor α) (idx : List ℤ)
    (hA : A.objective_list.length = A.shape.prod)
    (hlen : idx.length = A.shape.length)
    (hb : inBoundsB idx A.shape = true) :
    ∃ x, A.objective_list[(rowMajor idx A.shape).toNat]? = some x ∧
      A.access idx = Except.ok x := by
  have hok : boundsOk idx A.shape = true := boundsOk_of_inBoundsB _ _ hb
  obtain ⟨hr0, hr1⟩ := rowMajor_bounds idx A.shape hb
  have hrlen : (rowMajor idx A.shape).toNat < A.objective_list.length := by
    rw [hA]; omega
  rcases idx with _ | ⟨i, is⟩
  · -- empty index: the shape is empty too, the list has one element, and the
    -- final Python lookup is `objective_list[-1]`, its last element.
    have hsh : A.shape = [] := by
      rcases h : A.shape with _ | _
      · rfl
      · rw [h] at hlen; simp at hlen
    have hlen1 : A.objective_list.length = 1 := by
      rw [hA, hsh]; simp
    rcases h1 : A.objective_list with _ | ⟨x, _ | _⟩
    · rw [h1] at hlen1; simp at hlen1
    · refine ⟨x, by simp [rowMajor, hsh], ?_⟩
      rw [tequilaTensor.access, hsh, h1]
      simp [listIndex, boundsOk, pyGet]
    · rw [h1] at hlen1; simp at hlen1
  · have hne : (i :: is) ≠ ([] : List ℤ) := by simp
    have hli : listIndex (i :: is) A.shape = rowMajor (i :: is) A.shape + 1 :=
      listIndex_eq_rowMajor _ _ hne hlen
    have hget := pyGet_nonneg A.objective_list (rowMajor (i :: is) A.shape)
      hr0 (by rw [hA]; exact_mod_cast hr1)
    refine ⟨A.objective_list.get ⟨(rowMajor (i :: is) A.shape).toNat, hrlen⟩,
      List.getElem?_eq_getElem hrlen, ?_⟩
    rw [tequilaTensor.access, if_neg (by omega), if_neg (by simp [hok])]
    rw [show listIndex (i :: is) A.shape - 1 = rowMajor (i :: is) A.shape by
      omega]
    rw [hget]

lemma addLoop_eq_zipWith {α : Type} [Add α] :
    ∀ (xs ys : List α), xs.length ≤ ys.length →
      addLoop xs ys = Except.ok (List.zipWith (· + ·) xs ys)
  | [], _, _ => by simp [addLoop]
  | x :: xs, y :: ys, h => by
      rw [addLoop, addLoop_eq_zipWith xs ys (by simpa using h)]
      simp [Except.map]
  | _ :: _, [], h => by simp at h

lemma mulLoop_eq_zipWith {α : Type} [Mul α] :
    ∀ (xs ys : List α), xs.length ≤ ys.length →
      mulLoop xs ys = Except.ok (List.zipWith (· * ·) xs ys)
  | [], _, _ => by simp [mulLoop]
  | x :: xs, y :: ys, h => by
      rw [mulLoop, mulLoop_eq_zipWith xs ys (by simpa using h)]
      simp [Except.map]
  | _ :: _, [], h => by simp at h

/-! ### Claim theorems for the `tequilaTensor` class -/

/-- C1: for tensors whose list lengths match the products of their shapes,
`__add__` raises an exception exactly when the shapes differ, and on equal
shapes returns, without raising, a new tensor with the left operand's
shape and the element-wise sums. -/
theorem add_spec {α : Type} [Add α] (A B : tequilaTensor α)
    (hA : A.objective_list.length = A.shape.prod)
    (hB : B.objective_list.length = B.shape.prod) :
    ((∃ e, A.add B = Except.error e) ↔ A.shape ≠ B.shape)
    ∧ (A.shape = B.shape →
        A.add B = Except.ok
          { objective_list :=
              List.zipWith (· + ·) A.objective_list B.objective_list,
            shape := A.shape }) := by
  have hok : ∀ _ : A.shape = B.shape,
      A.add B = Except.ok
        { objective_list :=
            List.zipWith (· + ·) A.objective_list B.objective_list,
          shape := A.shape } := by
    intro h
    have hlen : A.objective_list.length ≤ B.objective_list.length := by
      rw [hA, hB, h]
    rw [tequilaTensor.add, if_neg (by simpa using h),
      addLoop_eq_zipWith _ _ hlen]
    simp [Except.map]
  refine ⟨⟨?_, ?_⟩, hok⟩
  · rintro ⟨e, he⟩
    intro hsh
    rw [hok hsh] at he
    simp at he
  · intro hsh
    exact ⟨_, by rw [tequilaTensor.add, if_pos hsh]⟩

/-- C1 witness: concrete instantiation of `add_spec`. -/
theorem add_spec_witness :
    ((∃ e, tequilaTensor.add (⟨[1, 2], [2]⟩ : tequilaTensor ℤ) ⟨[3, 4], [2]⟩ =
        Except.error e) ↔
      (⟨[1, 2], [2]⟩ : tequilaTensor ℤ).shape ≠
        (⟨[3, 4], [2]⟩ : tequilaTensor ℤ).shape)
    ∧ ((⟨[1, 2], [2]⟩ : tequilaTensor ℤ).shape =
          (⟨[3, 4], [2]⟩ : tequilaTensor ℤ).shape →
        tequilaTensor.add (⟨[1, 2], [2]⟩ : tequilaTensor ℤ) ⟨[3, 4], [2]⟩ =
          Except.ok
            { objective_list := List.zipWith (· + ·) [1, 2] [3, 4],
              shape := [2] }) :=
  add_spec ⟨[1, 2], [2]⟩ ⟨[3, 4], [2]⟩ (by decide) (by decide)

/-- C2: for a tensor whose list length matches the product of its shape,
`access` raises a generic exception on an index of the wrong length,
raises `ValueError` when some component is at least the corresponding
shape entry, returns an element without raising when every component is
within bounds, and `__getitem__` delegates to `access`. -/
theorem access_spec {α : Type} (A : tequilaTensor α) (idx : List ℤ)
    (hA : A.objective_list.length = A.shape.prod) :
    (idx.length ≠ A.shape.length →
        ∃ m, A.access idx = Except.error (PyErr.exc m))
    ∧ (idx.length = A.shape.length →
        (∃ (j : ℕ) (h1 : j < idx.length) (h2 : j < A.shape.length),
            (A.shape[j] : ℤ) ≤ idx[j]) →
        ∃ m, A.access idx = Except.error (PyErr.valueError m))
    ∧ (idx.length = A.shape.length →
        (∀ (j : ℕ) (h1 : j < idx.length) (h2 : j < A.shape.length),
            0 ≤ idx[j] ∧ idx[j] < (A.shape[j] : ℤ)) →
        ∃ x, A.access idx = Except.ok x)
    ∧ A.getitem idx = A.access idx := by
  refine ⟨?_, ?_, ?_, rfl⟩
  · intro h
    exact ⟨_, by rw [tequilaTensor.access, if_pos h]⟩
  · intro hlen hviol
    have hb := boundsOk_false_of_violation idx A.shape hviol
    exact ⟨_, by rw [tequilaTensor.access, if_neg (by omega), if_pos hb]⟩
  · intro hlen hfor
    obtain ⟨x, _, hx⟩ := access_ok_core A idx hA hlen
      (inBoundsB_of_forall idx A.shape hlen hfor)
    exact ⟨x, hx⟩

/-- C2 witness: concrete instantiation of `access_spec`. -/
theorem access_spec_witness :
    (([3, 1] : List ℤ).length ≠ ([4, 2] : List ℕ).length →
        ∃ m, tequilaTensor.access
            (⟨[10, 20, 30, 40, 50, 60, 70, 80], [4, 2]⟩ : tequilaTensor ℤ)
            [3, 1] = Except.error (PyErr.exc m))
    ∧ (([3, 1] : List ℤ).length = ([4, 2] : List ℕ).length →
        (∃ (j : ℕ) (h1 : j < ([3, 1] : List ℤ).length)
            (h2 : j < ([4, 2] : List ℕ).length),
            (([4, 2] : List ℕ)[j] : ℤ) ≤ ([3, 1] : List ℤ)[j]) →
        ∃ m, tequilaTensor.access
            (⟨[10, 20, 30, 40, 50, 60, 70, 80], [4, 2]⟩ : tequilaTensor ℤ)
            [3, 1] = Except.error (PyErr.valueError m))
    ∧ (([3, 1] : List ℤ).length = ([4, 2] : List ℕ).length →
        (∀ (j : ℕ) (h1 : j < ([3, 1] : List ℤ).length)
            (h2 : j < ([4, 2] : List ℕ).length),
            0 ≤ ([3, 1] : List ℤ)[j] ∧
              ([3, 1] : List ℤ)[j] < (([4, 2] : List ℕ)[j] : ℤ)) →
        ∃ x, tequilaTensor.access
            (⟨[10, 20, 30, 40, 50, 60, 70, 80], [4, 2]⟩ : tequilaTensor ℤ)
            [3, 1] = Except.ok x)
    ∧ tequilaTensor.getitem
        (⟨[10, 20, 30, 40, 50, 60, 70, 80], [4, 2]⟩ : tequilaTensor ℤ)
        [3, 1] =
      tequilaTensor.access
        (⟨[10, 20, 30, 40, 50, 60, 70, 80], [4, 2]⟩ : tequilaTensor ℤ)
        [3, 1] :=
  access_spec ⟨[10, 20, 30, 40, 50, 60, 70, 80], [4, 2]⟩ [3, 1] (by decide)

/-- C3: `__mul__` with a scalar right operand returns, without raising,
the tensor of the same shape with every element multiplied from the right;
with a tensor right operand it raises exactly when the shapes differ and
otherwise returns the element-wise product. -/
theorem mul_spec {α : Type} [Mul α] (A B : tequilaTensor α) (c : α)
    (hA : A.objective_list.length = A.shape.prod)
    (hB : B.objective_list.length = B.shape.prod) :
    A.mul (MulOther.scalar c) =
        Except.ok
          { objective_list := A.objective_list.map (fun x => x * c),
            shape := A.shape }
    ∧ ((∃ e, A.mul (MulOther.tensor B) = Except.error e) ↔
        A.shape ≠ B.shape)
    ∧ (A.shape = B.shape →
        A.mul (MulOther.tensor B) = Except.ok
          { objective_list :=
              List.zipWith (· * ·) A.objective_list B.objective_list,
            shape := A.shape }) := by
  have hok : ∀ _ : A.shape = B.shape,
      A.mul (MulOther.tensor B) = Except.ok
        { objective_list :=
            List.zipWith (· * ·) A.objective_list B.objective_list,
          shape := A.shape } := by
    intro h
    have hlen : A.objective_list.length ≤ B.objective_list.length := by
      rw [hA, hB, h]
    rw [tequilaTensor.mul, if_neg (by simpa using h),
      mulLoop_eq_zipWith _ _ hlen]
    simp [Except.map]
  refine ⟨rfl, ⟨?_, ?_⟩, hok⟩
  · rintro ⟨e, he⟩
    intro hsh
    rw [hok hsh] at he
    simp at he
  · intro hsh
    exact ⟨_, by rw [tequilaTensor.mul, if_pos hsh]⟩

/-- C3 witness: concrete instantiation of `mul_spec`. -/
theorem mul_spec_witness :
    tequilaTensor.mul (⟨[1, 2], [2]⟩ : tequilaTensor ℤ)
        (MulOther.scalar 5) =
      Except.ok
        { objective_list := ([1, 2] : List ℤ).map (fun x => x * 5),
          shape := [2] }
    ∧ ((∃ e, tequilaTensor.mul (⟨[1, 2], [2]⟩ : tequilaTensor ℤ)
          (MulOther.tensor ⟨[3, 4], [2]⟩) = Except.error e) ↔
        (⟨[1, 2], [2]⟩ : tequilaTensor ℤ).shape ≠
          (⟨[3, 4], [2]⟩ : tequilaTensor ℤ).shape)
    ∧ ((⟨[1, 2], [2]⟩ : tequilaTensor ℤ).shape =
          (⟨[3, 4], [2]⟩ : tequilaTensor ℤ).shape →
        tequilaTensor.mul (⟨[1, 2], [2]⟩ : tequilaTensor ℤ)
            (MulOther.tensor ⟨[3, 4], [2]⟩) =
          Except.ok
            { objective_list := List.zipWith (· * ·) [1, 2] [3, 4],
              shape := [2] }) :=
  mul_spec ⟨[1, 2], [2]⟩ ⟨[3, 4], [2]⟩ 5 (by decide) (by decide)

/-- C4: on an index of the right length with every component in bounds,
`access` returns `objective_list[k]` where `k` is the row-major flat index
`Σ idx[i] * prod(shape[i+1:])` (the `+1` added for the last component and
the `-1` in the final lookup cancel). -/
theorem access_rowMajor_spec {α : Type} (A : tequilaTensor α)
    (idx : List ℤ)
    (hA : A.objective_list.length = A.shape.prod)
    (hlen : idx.length = A.shape.length)
    (hbounds : ∀ (j : ℕ) (h1 : j < idx.length) (h2 : j < A.shape.length),
        0 ≤ idx[j] ∧ idx[j] < (A.shape[j] : ℤ)) :
    ∃ x, A.objective_list[(rowMajor idx A.shape).toNat]? = some x ∧
      A.access idx = Except.ok x :=
  access_ok_core A idx hA hlen
    (inBoundsB_of_forall idx A.shape hlen hbounds)

/-- C4 witness: shape `[4, 2]`, index `(3, 1)`, flat index `7` (the
example of the claim). -/
theorem access_rowMajor_spec_witness :
    ∃ x, ([10, 20, 30, 40, 50, 60, 70, 80] :
        List ℤ)[(rowMajor [3, 1] [4, 2]).toNat]? = some x ∧
      tequilaTensor.access
        (⟨[10, 20, 30, 40, 50, 60, 70, 80], [4, 2]⟩ : tequilaTensor ℤ)
        [3, 1] = Except.ok x :=
  access_rowMajor_spec ⟨[10, 20, 30, 40, 50, 60, 70, 80], [4, 2]⟩ [3, 1]
    (by decide) (by decide)
    (by
      intro j h1 h2
      have hj : j < 2 := by simpa using h1
      interval_cases j <;> norm_num)

/-- C5: `__rmul__` delegates to `__mul__`, so scalar multiplication from
the left produces exactly the same tensor (same list, same shape) as
scalar multiplication from the right. -/
theorem rmul_spec {α : Type} [Mul α] (A : tequilaTensor α) (c : α) :
    A.rmul c = A.mul (MulOther.scalar c)
    ∧ ∃ C, A.rmul c = Except.ok C
        ∧ A.mul (MulOther.scalar c) = Except.ok C
        ∧ C.objective_list = A.objective_list.map (fun x => x * c)
        ∧ C.shape = A.shape :=
  ⟨rfl, _, rfl, rfl, rfl, rfl⟩

/-- C6: with shape `[4, 2]` and a list of length `8`, `access` accepts the
index `(-1, 0)`: the bounds check only rejects components that are too
large, the computed `list_index` is `-1`, the final Python lookup is
`objective_list[-2]`, and the element at position 6 is returned with no
exception. -/
theorem access_negative_spec :
    tequilaTensor.access
        (⟨[0, 1, 2, 3, 4, 5, 6, 7], [4, 2]⟩ : tequilaTensor ℤ) [-1, 0] =
      Except.ok 6
    ∧ listIndex [-1, 0] [4, 2] = -1
    ∧ pyGet ([0, 1, 2, 3, 4, 5, 6, 7] : List ℤ) (-2) = some 6 := by
  refine ⟨?_, by decide, by decide⟩
  rfl

/-!
### Part 2: circuit compilation (CircuitCompiler notebook)

The decomposition engine itself lives in the external library; the
notebook records only the mathematical identities (markdown) and the
compiled circuits it prints.  The definitions below therefore model that
missing engine from the spec and from the notebook's own description: a
gate language with angles measured in units of `π`, the Gray-code-ordered
decomposition of a multi-controlled `Rz`, the backend-dependent `compile`
for a Toffoli gate, and the unitary semantics of circuits over two
control wires (qubits 0 and 1) and one target wire (qubit 2).
-/

/-- Gates appearing in the compiled circuits of the notebook.  Rotation
angles are rational multiples of `π` (the `ℚ` value `q` denotes the angle
`q·π`). -/
inductive QGate where
  | rz : ℕ → ℚ → QGate
  | ry : ℕ → ℚ → QGate
  | cnot : ℕ → ℕ → QGate
  | cphase : ℕ → ℕ → ℚ → QGate
  | ccx : ℕ → ℕ → ℕ → QGate
deriving DecidableEq, Repr

/-- Number of qubits a gate acts on. -/
def nQubits : QGate → ℕ
  | QGate.rz _ _ => 1
  | QGate.ry _ _ => 1
  | QGate.cnot _ _ => 2
  | QGate.cphase _ _ _ => 2
  | QGate.ccx _ _ _ => 3

/-- The binary-reflected Gray code: `gray t = t xor (t >> 1)`. -/
def gray (t : ℕ) : ℕ := t ^^^ (t >>> 1)

/-- Number of set bits among the low `w` bits of `n` (the size `m` of the
subset `σ` of controls in the `(I - Z)^{⊗k}` expansion term numbered by a
Gray-code value; `w = k` suffices since Gray-code values of `k`-bit
counters stay below `2^k`). -/
def popcountW : ℕ → ℕ → ℕ
  | 0, _ => 0
  | w + 1, n => n % 2 + popcountW w (n / 2)

/-- The position of the lowest set bit among the low `w` bits of `n`. -/
def bitPosW : ℕ → ℕ → ℕ
  | 0, _ => 0
  | w + 1, n => if n % 2 = 1 then 0 else 1 + bitPosW w (n / 2)

/-- The single bit position in which consecutive Gray-code values differ
(cyclically); it is the control qubit of the CNOT that follows the `t`-th
rotation. -/
def changedBit (k t : ℕ) : ℕ := bitPosW k (gray t ^^^ gray ((t + 1) % 2 ^ k))

/-- Modelled from the spec: the compiled form of a `Z`-rotation with `k`
controls (qubits `0..k-1`) and target `k`, which the repository's
notebook describes but does not implement.  The `(I - Z)^{⊗k}` expansion
terms are traversed in Gray-code order; the term for the subset with
Gray-code value `gray t` contributes the exponential-Pauli angle
`(-1)^m · a/2^k` (with `m` set bits), synthesised as an `Rz` on the
target followed by a CNOT from the bit changing to the next Gray-code
value, so that consecutive CNOTs of neighbouring terms have already been
cancelled. -/
def compileCRz (k : ℕ) (a : ℚ) : List QGate :=
  ((List.range (2 ^ k)).map fun t =>
    [QGate.rz k ((-1) ^ popcountW k (gray t) * a / 2 ^ k),
     QGate.cnot (changedBit k t) k]).flatten

/-- The two backends the notebook compiles the Toffoli gate to. -/
inductive Backend where
  | cirq : Backend
  | qiskit : Backend
deriving DecidableEq

/-- Modelled from the spec: `tq.compile(Toffoli(0,1,2), backend=...)`
decomposes a gate only when the backend does not support it natively.
`cirq` supports the Toffoli gate, so the circuit is left intact; `qiskit`
does not, and the notebook records the printed decomposition into one- and
two-qubit gates (a controlled `U1(π/2)` on the control pair, a
`Ry(-π/2)`/`Ry(π/2)` basis change on the target, and the Gray-code CRz
core). -/
def compileToffoli : Backend → List QGate
  | Backend.cirq => [QGate.ccx 0 1 2]
  | Backend.qiskit =>
      [QGate.cphase 0 1 (1/2), QGate.ry 2 (-(1/2)),
       QGate.rz 2 (1/4), QGate.cnot 0 2, QGate.rz 2 (-(1/4)),
       QGate.cnot 1 2, QGate.rz 2 (1/4), QGate.cnot 0 2,
       QGate.rz 2 (-(1/4)), QGate.cnot 1 2, QGate.ry 2 (1/2)]

/-! ### Unitaries: concrete 2×2 gate matrices -/

/-- Shorthand for the 2×2 complex matrices acting on one qubit. -/
abbrev M2 : Type := Matrix (Fin 2) (Fin 2) ℂ

/-- `epc t = e^{i t}` for a real angle `t`. -/
noncomputable def epc (t : ℝ) : ℂ := Complex.exp (t * Complex.I)

/-- The `Rz` gate, `diag(e^{-i t/2}, e^{i t/2})`. -/
noncomputable def RzM (t : ℝ) : M2 := !![epc (-(t / 2)), 0; 0, epc (t / 2)]

/-- The phase gate, `diag(1, e^{i t})`. -/
noncomputable def PhaseM (t : ℝ) : M2 := !![1, 0; 0, epc t]

/-- The `Ry` gate. -/
noncomputable def RyM (t : ℝ) : M2 :=
  !![(Real.cos (t / 2) : ℂ), -(Real.sin (t / 2) : ℂ);
     (Real.sin (t / 2) : ℂ), (Real.cos (t / 2) : ℂ)]

/-- The `Rx` gate. -/
noncomputable def RxM (t : ℝ) : M2 :=
  !![(Real.cos (t / 2) : ℂ), -Complex.I * (Real.sin (t / 2) : ℂ);
     -Complex.I * (Real.sin (t / 2) : ℂ), (Real.cos (t / 2) : ℂ)]

/-- The Pauli `X` gate. -/
noncomputable def XM : M2 := !![0, 1; 1, 0]

/-- The entry `1/√2` of the Hadamard gate. -/
noncomputable def sC : ℂ := ((Real.sqrt 2)⁻¹ : ℝ)

/-- The Hadamard gate. -/
noncomputable def HM : M2 := !![sC, sC; sC, -sC]

/-- Modelled from the spec: the principal power `X^a` of the Pauli `X`
gate (`X = H Z H` with eigenvalues `1` and `-1`, so
`X^a = H · diag(1, e^{iπa}) · H`, written out entrywise). -/
noncomputable def XpowM (a : ℝ) : M2 :=
  !![(1 + epc (a * Real.pi)) / 2, (1 - epc (a * Real.pi)) / 2;
     (1 - epc (a * Real.pi)) / 2, (1 + epc (a * Real.pi)) / 2]

/-- Modelled from the spec: the principal power `Y^a` of the Pauli `Y`
gate (`Y = Rx(-π/2) Z Rx(π/2)`, so `Y^a = Rx(-π/2) · diag(1, e^{iπa}) ·
Rx(π/2)`, written out entrywise). -/
noncomputable def YpowM (a : ℝ) : M2 :=
  !![(1 + epc (a * Real.pi)) / 2, -Complex.I * (1 - epc (a * Real.pi)) / 2;
     Complex.I * (1 - epc (a * Real.pi)) / 2, (1 + epc (a * Real.pi)) / 2]

/-!
### Operators on `k` control qubits and one target qubit

Every gate appearing in the identities of the notebook is block-diagonal
with respect to the computational basis of the `k` control qubits: it
maps each control bitstring `c` to a 2×2 block acting on the target.
Composition of such operators is blockwise matrix multiplication, which
is exactly the pointwise `Pi` multiplication of `CtrlOp k`.
-/

/-- Operators on `k` controls and one target that are block-diagonal in
the control basis (one 2×2 target block per control bitstring). -/
abbrev CtrlOp (k : ℕ) : Type := (Fin k → Bool) → M2

/-- The gate applying `U` to the target when all `k` controls are set. -/
noncomputable def ctrlOp (k : ℕ) (U : M2) : CtrlOp k :=
  fun c => if ∀ j, c j = true then U else 1

/-- A single-qubit gate on the target wire alone. -/
noncomputable def onT (k : ℕ) (U : M2) : CtrlOp k := fun _ => U

/-- `CP_k(a)`: the phase gate with `k` controls. -/
noncomputable def CPg (k : ℕ) (a : ℝ) : CtrlOp k := ctrlOp k (PhaseM a)

/-- `CRz_k(a)`: the `Z` rotation with `k` controls. -/
noncomputable def CRzg (k : ℕ) (a : ℝ) : CtrlOp k := ctrlOp k (RzM a)

/-- `CX_k^a`: the controlled power of `X` with `k` controls. -/
noncomputable def CXpow (k : ℕ) (a : ℝ) : CtrlOp k := ctrlOp k (XpowM a)

/-- `CY_k^a`: the controlled power of `Y` with `k` controls. -/
noncomputable def CYpow (k : ℕ) (a : ℝ) : CtrlOp k := ctrlOp k (YpowM a)

/-- The basis index of a control bit. -/
def bIdx : Bool → Fin 2 := fun b => if b then 1 else 0

/-- A diagonal operator on `k` controls and their target (an operator on
`k+1` wires), re-read as an operator on `k+1` controls tensored with the
identity on a fresh target: the new block at bitstring `c` is the
diagonal entry of the old block selected by the last bit of `c`, times
the identity. -/
noncomputable def liftDiag {k : ℕ} (A : CtrlOp k) : CtrlOp (k + 1) :=
  fun c =>
    A (fun j => c j.castSucc) (bIdx (c (Fin.last k))) (bIdx (c (Fin.last k)))
      • (1 : M2)

/-- Angle denoted by a rational number of the gate language: `q·π`. -/
noncomputable def rad (q : ℚ) : ℝ := (q : ℝ) * Real.pi

/-- Modelled from the spec: the unitary of a single gate on the wire
layout of the notebook's three-qubit examples (controls on qubits 0 and
1, target on qubit 2), as a control-block-diagonal operator.  Gates
outside this layout are not representable here and get `none`. -/
noncomputable def sem3? : QGate → Option (CtrlOp 2)
  | QGate.rz 2 t => some (onT 2 (RzM (rad t)))
  | QGate.ry 2 t => some (onT 2 (RyM (rad t)))
  | QGate.cnot 0 2 => some (fun c => if c 0 then XM else 1)
  | QGate.cnot 1 2 => some (fun c => if c 1 then XM else 1)
  | QGate.cphase 0 1 t =>
      some (fun c => if c 0 && c 1 then epc (rad t) • (1 : M2) else 1)
  | QGate.ccx 0 1 2 => some (fun c => if c 0 && c 1 then XM else 1)
  | _ => none

/-- The unitary of a circuit, gates listed in time order (so the head
gate is applied first and multiplies on the right). -/
noncomputable def semCirc3 : List QGate → Option (CtrlOp 2)
  | [] => some 1
  | g :: gs =>
      match sem3? g, semCirc3 gs with
      | some U, some R => some (R * U)
      | _, _ => none

/-! ### 2×2 matrix algebra of the gate set -/

lemma epc_add (a b : ℝ) : epc a * epc b = epc (a + b) := by
  rw [epc, epc, epc, ← Complex.exp_add]
  congr 1
  push_cast
  ring

lemma epc_zero : epc 0 = 1 := by simp [epc]

lemma RzM_mul (a b : ℝ) : RzM a * RzM b = RzM (a + b) := by
  ext i j
  fin_cases i <;> fin_cases j <;>
    simp [RzM, Matrix.mul_apply, Fin.sum_univ_two, epc_add] <;>
    · congr 1
      ring

lemma RzM_zero : RzM 0 = 1 := by
  ext i j
  fin_cases i <;> fin_cases j <;>
    simp [RzM, Matrix.one_apply, epc_zero]

lemma XM_mul_XM : XM * XM = 1 := by
  ext i j
  fin_cases i <;> fin_cases j <;>
    simp [XM, Matrix.mul_apply, Fin.sum_univ_two, Matrix.one_apply]

lemma XM_RzM_XM (t : ℝ) : XM * RzM t * XM = RzM (-t) := by
  ext i j
  fin_cases i <;> fin_cases j <;>
    simp [XM, RzM, Matrix.mul_apply, Fin.sum_univ_two] <;>
    congr 1 <;> ring

lemma RyM_mul (a b : ℝ) : RyM a * RyM b = RyM (a + b) := by
  ext i j
  fin_cases i <;> fin_cases j <;>
    simp [RyM, Matrix.mul_apply, Fin.sum_univ_two] <;>
    · norm_cast
      rw [show (a + b) / 2 = a / 2 + b / 2 from by ring]
      simp [Real.cos_add, Real.sin_add]
      try ring

lemma RyM_zero : RyM 0 = 1 := by
  ext i j
  fin_cases i <;> fin_cases j <;>
    simp [RyM, Matrix.one_apply]

lemma epc_pi_div_two : epc (Real.pi / 2) = Complex.I := by
  rw [epc, Complex.exp_mul_I, ← Complex.ofReal_cos, ← Complex.ofReal_sin]
  simp [Real.cos_pi_div_two, Real.sin_pi_div_two]

lemma epc_neg_pi_div_two : epc (-(Real.pi / 2)) = -Complex.I := by
  rw [epc, Complex.exp_mul_I, ← Complex.ofReal_cos, ← Complex.ofReal_sin]
  simp [Real.cos_pi_div_two, Real.sin_pi_div_two]

lemma RzM_pi : RzM Real.pi = !![-Complex.I, 0; 0, Complex.I] := by
  ext i j
  fin_cases i <;> fin_cases j <;>
    simp [RzM, epc_pi_div_two, epc_neg_pi_div_two]

lemma sC_sq : sC * sC = 1 / 2 := by
  rw [sC, ← Complex.ofReal_mul]
  rw [show (Real.sqrt 2)⁻¹ * (Real.sqrt 2)⁻¹ = 1 / 2 by
    rw [← mul_inv, Real.mul_self_sqrt (by norm_num)]
    norm_num]
  push_cast
  ring

lemma HM_mul_HM : HM * HM = 1 := by
  ext i j
  fin_cases i <;> fin_cases j <;>
    simp [HM, Matrix.mul_apply, Fin.sum_univ_two, Matrix.one_apply] <;>
    try ring
  all_goals linear_combination 2 * sC_sq

lemma H_phase_H (t : ℝ) :
    HM * PhaseM t * HM =
      !![(1 + epc t) / 2, (1 - epc t) / 2;
         (1 - epc t) / 2, (1 + epc t) / 2] := by
  ext i j
  fin_cases i <;> fin_cases j
  · simp [HM, PhaseM, Matrix.mul_apply, Fin.sum_univ_two]
    linear_combination (1 + epc t) * sC_sq
  · simp [HM, PhaseM, Matrix.mul_apply, Fin.sum_univ_two]
    linear_combination (1 - epc t) * sC_sq
  · simp [HM, PhaseM, Matrix.mul_apply, Fin.sum_univ_two]
    linear_combination (1 - epc t) * sC_sq
  · simp [HM, PhaseM, Matrix.mul_apply, Fin.sum_univ_two]
    linear_combination (1 + epc t) * sC_sq

lemma cos_quarter : Real.cos (-(Real.pi / 2) / 2) = Real.sqrt 2 / 2 := by
  rw [show -(Real.pi / 2) / 2 = -(Real.pi / 4) from by ring, Real.cos_neg,
    Real.cos_pi_div_four]

lemma sin_quarter : Real.sin (-(Real.pi / 2) / 2) = -(Real.sqrt 2 / 2) := by
  rw [show -(Real.pi / 2) / 2 = -(Real.pi / 4) from by ring, Real.sin_neg,
    Real.sin_pi_div_four]

lemma cos_quarter' : Real.cos (Real.pi / 2 / 2) = Real.sqrt 2 / 2 := by
  rw [show Real.pi / 2 / 2 = Real.pi / 4 from by ring, Real.cos_pi_div_four]

lemma sin_quarter' : Real.sin (Real.pi / 2 / 2) = Real.sqrt 2 / 2 := by
  rw [show Real.pi / 2 / 2 = Real.pi / 4 from by ring, Real.sin_pi_div_four]

lemma sqrt2_sq : ((Real.sqrt 2 : ℝ) : ℂ) * ((Real.sqrt 2 : ℝ) : ℂ) = 2 := by
  rw [← Complex.ofReal_mul, Real.mul_self_sqrt (by norm_num)]
  norm_num

lemma Rx_mul_Rx : RxM (-(Real.pi / 2)) * RxM (Real.pi / 2) = 1 := by
  ext i j
  fin_cases i <;> fin_cases j <;>
    · simp [RxM, Matrix.mul_apply, Fin.sum_univ_two, Matrix.one_apply,
        cos_quarter, sin_quarter, cos_quarter', sin_quarter']
      try ring
      try linear_combination ((1 : ℂ)/4 - Complex.I ^ 2/4) * sqrt2_sq -
        (1 / 2 : ℂ) * Complex.I_sq

lemma Rx_phase_Rx (t : ℝ) :
    RxM (-(Real.pi / 2)) * PhaseM t * RxM (Real.pi / 2) =
      !![(1 + epc t) / 2, -Complex.I * (1 - epc t) / 2;
         Complex.I * (1 - epc t) / 2, (1 + epc t) / 2] := by
  ext i j
  fin_cases i <;> fin_cases j
  · simp [RxM, PhaseM, Matrix.mul_apply, Fin.sum_univ_two,
      cos_quarter, sin_quarter, cos_quarter', sin_quarter']
    linear_combination ((1 : ℂ)/4 - Complex.I ^ 2 * epc t/4) * sqrt2_sq +
      (-(epc t)/2) * Complex.I_sq
  · simp [RxM, PhaseM, Matrix.mul_apply, Fin.sum_univ_two,
      cos_quarter, sin_quarter, cos_quarter', sin_quarter']
    linear_combination ((-Complex.I + Complex.I * epc t)/4) * sqrt2_sq
  · simp [RxM, PhaseM, Matrix.mul_apply, Fin.sum_univ_two,
      cos_quarter, sin_quarter, cos_quarter', sin_quarter']
    linear_combination ((Complex.I - Complex.I * epc t)/4) * sqrt2_sq
  · simp [RxM, PhaseM, Matrix.mul_apply, Fin.sum_univ_two,
      cos_quarter, sin_quarter, cos_quarter', sin_quarter']
    linear_combination (-Complex.I ^ 2/4 + epc t/4) * sqrt2_sq +
      (-(1 : ℂ)/2) * Complex.I_sq

lemma phase_smul (a : ℝ) : PhaseM a = epc (a / 2) • RzM a := by
  ext i j
  fin_cases i <;> fin_cases j <;>
    simp [PhaseM, RzM, Matrix.smul_apply, epc_add, epc_zero]

lemma onT_ctrl_onT (k : ℕ) (U V W : M2) (h : V * W = 1) :
    onT k V * ctrlOp k U * onT k W = ctrlOp k (V * U * W) := by
  funext c
  by_cases hc : ∀ j, c j = true <;>
    simp [onT, ctrlOp, hc, Pi.mul_apply, h]

lemma hxh (a : ℝ) : HM * PhaseM (a * Real.pi) * HM = XpowM a := by
  rw [H_phase_H, XpowM]

lemma rxr (a : ℝ) :
    RxM (-(Real.pi / 2)) * PhaseM (a * Real.pi) * RxM (Real.pi / 2) =
      YpowM a := by
  rw [Rx_phase_Rx, YpowM]

lemma cp_step (k : ℕ) (a : ℝ) :
    CPg (k + 1) a = liftDiag (CPg k (a / 2)) * CRzg (k + 1) a := by
  funext c
  by_cases hfirst : ∀ j : Fin k, c j.castSucc = true
  · by_cases hlast : c (Fin.last k) = true
    · have hall : ∀ j : Fin (k + 1), c j = true :=
        Fin.forall_fin_succ'.mpr ⟨hfirst, hlast⟩
      simp [CPg, CRzg, ctrlOp, liftDiag, hall, hfirst, hlast, bIdx,
        Pi.mul_apply, PhaseM, smul_mul_assoc]
      simpa [PhaseM] using phase_smul a
    · have hnall : ¬ ∀ j : Fin (k + 1), c j = true := fun h => hlast (h _)
      simp [CPg, CRzg, ctrlOp, liftDiag, hnall, hfirst, hlast, bIdx,
        Pi.mul_apply, PhaseM]
  · have hnall : ¬ ∀ j : Fin (k + 1), c j = true := by
      intro h
      exact hfirst fun j => h j.castSucc
    simp [CPg, CRzg, ctrlOp, liftDiag, hnall, hfirst, Pi.mul_apply,
      Matrix.one_apply]

/-- C8: the controlled phase gate satisfies the recurrence
`CP_k(a) = CP_(k-1)(a/2) · CRz_k(a)` (the first factor read on the `k-1`
controls and the `k`-th control as its target, tensored with the identity
on the target wire), with base case `CP_0(a) = Phase(a) = e^(i a/2) Rz(a)`,
and the controlled power gates reduce to controlled phase gates by a basis
change: `CX_k^a = H · CP_k(aπ) · H` and
`CY_k^a = Rx(-π/2) · CP_k(aπ) · Rx(π/2)`, as equalities of unitaries. -/
theorem cp_cx_cy_spec :
    (∀ (k : ℕ) (a : ℝ),
      CPg (k + 1) a = liftDiag (CPg k (a / 2)) * CRzg (k + 1) a)
    ∧ (∀ a : ℝ, CPg 0 a = onT 0 (PhaseM a))
    ∧ (∀ a : ℝ, PhaseM a = epc (a / 2) • RzM a)
    ∧ (∀ (k : ℕ) (a : ℝ),
      CXpow k a = onT k HM * CPg k (a * Real.pi) * onT k HM)
    ∧ (∀ (k : ℕ) (a : ℝ),
      CYpow k a = onT k (RxM (-(Real.pi / 2))) * CPg k (a * Real.pi) *
        onT k (RxM (Real.pi / 2))) := by
  refine ⟨cp_step, ?_, phase_smul, ?_, ?_⟩
  · intro a
    funext c
    simp [CPg, ctrlOp, onT, Fin.forall_fin_zero_pi]
  · intro k a
    rw [CXpow, CPg, onT_ctrl_onT k _ _ _ HM_mul_HM, hxh]
  · intro k a
    rw [CYpow, CPg, onT_ctrl_onT k _ _ _ Rx_mul_Rx, rxr]

lemma XM_RzM_XM_mul (t : ℝ) (M : M2) :
    XM * (RzM t * (XM * M)) = RzM (-t) * M := by
  rw [← mul_assoc, ← mul_assoc, XM_RzM_XM]

lemma RzM_RzM_mul (a b : ℝ) (M : M2) :
    RzM a * (RzM b * M) = RzM (a + b) * M := by
  rw [← mul_assoc, RzM_mul]

lemma XM_XM_mul (M : M2) : XM * (XM * M) = M := by
  rw [← mul_assoc, XM_mul_XM, one_mul]

lemma rad_quarter : rad (1/4) = Real.pi / 4 := by
  rw [rad]
  push_cast
  ring

lemma rad_neg_quarter : rad (-(1/4)) = -(Real.pi / 4) := by
  rw [rad]
  push_cast
  ring

lemma rad_half : rad (1/2) = Real.pi / 2 := by
  rw [rad]
  push_cast
  ring

lemma rad_neg_half : rad (-(1/2)) = -(Real.pi / 2) := by
  rw [rad]
  push_cast
  ring

lemma semCirc3_core :
    semCirc3 [QGate.rz 2 (1/4), QGate.cnot 0 2, QGate.rz 2 (-(1/4)),
      QGate.cnot 1 2, QGate.rz 2 (1/4), QGate.cnot 0 2,
      QGate.rz 2 (-(1/4)), QGate.cnot 1 2] = some (ctrlOp 2 (RzM Real.pi)) := by
  simp only [semCirc3, sem3?]
  congr 1
  funext c
  simp only [Pi.mul_apply, Pi.one_apply, onT, ctrlOp, rad_quarter,
    rad_neg_quarter, Fin.forall_fin_two]
  cases hc0 : c 0 <;> cases hc1 : c 1 <;>
    simp only [hc0, hc1, if_true, if_false, Bool.false_eq_true,
      and_true, and_false, false_and, true_and, if_neg, one_mul, mul_one,
      ite_true, ite_false, mul_assoc] <;>
    simp only [XM_RzM_XM_mul, XM_XM_mul, RzM_RzM_mul, RzM_mul] <;>
    · try rw [← RzM_zero]
      try congr 1
      try ring

lemma compileCRz_two_one :
    compileCRz 2 1 =
      [QGate.rz 2 (1/4), QGate.cnot 0 2, QGate.rz 2 (-(1/4)),
       QGate.cnot 1 2, QGate.rz 2 (1/4), QGate.cnot 0 2,
       QGate.rz 2 (-(1/4)), QGate.cnot 1 2] := by
  rw [show compileCRz 2 1 =
    [QGate.rz 2 ((-1) ^ popcountW 2 (gray 0) * 1 / 2 ^ 2),
     QGate.cnot (changedBit 2 0) 2,
     QGate.rz 2 ((-1) ^ popcountW 2 (gray 1) * 1 / 2 ^ 2),
     QGate.cnot (changedBit 2 1) 2,
     QGate.rz 2 ((-1) ^ popcountW 2 (gray 2) * 1 / 2 ^ 2),
     QGate.cnot (changedBit 2 2) 2,
     QGate.rz 2 ((-1) ^ popcountW 2 (gray 3) * 1 / 2 ^ 2),
     QGate.cnot (changedBit 2 3) 2] from rfl]
  norm_num [show popcountW 2 (gray 0) = 0 from rfl,
    show popcountW 2 (gray 1) = 1 from rfl,
    show popcountW 2 (gray 2) = 2 from rfl,
    show popcountW 2 (gray 3) = 1 from rfl,
    show changedBit 2 0 = 0 from rfl, show changedBit 2 1 = 1 from rfl,
    show changedBit 2 2 = 0 from rfl, show changedBit 2 3 = 1 from rfl]

/-- C7: compiling a `Z` rotation with `k = 2` controls and angle `π` via
the Gray-code-ordered `(I - Z)^{⊗k}` expansion produces the alternating
sequence `Rz(π/4), CNOT(0→2), Rz(-π/4), CNOT(1→2), Rz(π/4), CNOT(0→2),
Rz(-π/4), CNOT(1→2)` (the angle field counts multiples of `π`), and the
unitary of that compiled circuit is exactly `CRz_2(π)`. -/
theorem compileCRz_spec :
    compileCRz 2 1 =
      [QGate.rz 2 (1/4), QGate.cnot 0 2, QGate.rz 2 (-(1/4)),
       QGate.cnot 1 2, QGate.rz 2 (1/4), QGate.cnot 0 2,
       QGate.rz 2 (-(1/4)), QGate.cnot 1 2]
    ∧ semCirc3 (compileCRz 2 1) = some (ctrlOp 2 (RzM Real.pi)) :=
  ⟨compileCRz_two_one, by rw [compileCRz_two_one]; exact semCirc3_core⟩

lemma ry_rz_ry :
    RyM (Real.pi / 2) * (RzM Real.pi * RyM (-(Real.pi / 2))) =
      -Complex.I • XM := by
  ext i j
  fin_cases i <;> fin_cases j <;>
    · simp [RyM, RzM_pi, XM, Matrix.mul_apply, Fin.sum_univ_two,
        cos_quarter, sin_quarter, cos_quarter', sin_quarter']
      try ring
      try linear_combination (-Complex.I / 2) * sqrt2_sq

lemma ry_sandwich_zero (s : ℝ) (hs : s = 0) :
    RyM (Real.pi / 2) * (RzM s * RyM (-(Real.pi / 2))) = 1 := by
  subst hs
  rw [RzM_zero, one_mul, RyM_mul, show Real.pi / 2 + -(Real.pi / 2) = 0 from
    by ring, RyM_zero]

lemma ry_sandwich_pi (s : ℝ) (hs : s = Real.pi) :
    epc (Real.pi / 2) •
      (RyM (Real.pi / 2) * (RzM s * RyM (-(Real.pi / 2)))) = XM := by
  subst hs
  rw [ry_rz_ry, epc_pi_div_two, smul_smul]
  simp [mul_neg, Complex.I_mul_I]

lemma semCirc3_toffoli_qiskit :
    semCirc3 (compileToffoli Backend.qiskit) = some (ctrlOp 2 XM) := by
  simp only [compileToffoli, semCirc3, sem3?]
  congr 1
  funext c
  simp only [Pi.mul_apply, Pi.one_apply, onT, ctrlOp, rad_quarter,
    rad_neg_quarter, rad_half, rad_neg_half, Fin.forall_fin_two]
  cases hc0 : c 0 <;> cases hc1 : c 1 <;>
    simp only [hc0, hc1, if_true, if_false, Bool.false_eq_true,
      Bool.and_self, Bool.and_false, Bool.false_and, Bool.and_true,
      Bool.true_and, and_true, and_false, false_and, true_and, one_mul,
      mul_one, ite_true, ite_false, mul_assoc] <;>
    (try simp only [mul_smul_comm, mul_one]) <;>
    (try simp only [XM_RzM_XM_mul, XM_XM_mul, RzM_RzM_mul, RzM_mul]) <;>
    first
    | exact ry_sandwich_zero _ (by ring)
    | exact ry_sandwich_pi _ (by ring)

lemma semCirc3_toffoli_cirq :
    semCirc3 (compileToffoli Backend.cirq) = some (ctrlOp 2 XM) := by
  simp only [compileToffoli, semCirc3, sem3?]
  congr 1
  funext c
  simp only [Pi.mul_apply, Pi.one_apply, ctrlOp, Fin.forall_fin_two,
    one_mul]
  cases hc0 : c 0 <;> cases hc1 : c 1 <;>
    simp [hc0, hc1]

/-- C9: `tq.compile` decomposes only when needed: with backend `cirq` the
Toffoli gate stays a single three-qubit controlled-controlled-X gate,
while with backend `qiskit` it becomes a circuit of one- and two-qubit
gates only, whose unitary equals that of the intact Toffoli. -/
theorem compile_backend_spec :
    compileToffoli Backend.cirq = [QGate.ccx 0 1 2]
    ∧ (compileToffoli Backend.qiskit).all (fun g => decide (nQubits g ≤ 2)) =
        true
    ∧ semCirc3 (compileToffoli Backend.qiskit) =
        semCirc3 (compileToffoli Backend.cirq)
    ∧ semCirc3 (compileToffoli Backend.cirq) = some (ctrlOp 2 XM) :=
  ⟨rfl, by decide,
    by rw [semCirc3_toffoli_qiskit, semCirc3_toffoli_cirq],
    semCirc3_toffoli_cirq⟩
